import Mathlib

/-!
Shallow embedding of the AutoBridge floorplan partitioning engine, covering
graph.py, src/autobridge/Floorplan/Partition.py and
in-develop/src/autobridge/Floorplan/FourWayPartition.py.

Modelling conventions: machine floats of the source are modelled as
rationals; Python dictionaries as association lists in insertion order
(dictionary keys are unique); the MIP solver of the python-mip library as an
oracle argument delivering an optimization status together with the values
of the binary decision variables; Python exceptions as Except values.
-/

namespace AutoBridge

/-! Part 1: graph.py (Vertex, Edge, Graph.initEdges). -/

namespace GraphPy

/-- models the Python substring test (pat in s) through splitOn: the split
has more than one piece exactly when pat occurs in s. -/
def pyIn (pat s : String) : Bool := (s.splitOn pat).length != 1

/-- Vertex of graph.py (lines 29-48). Only the fields touched by the edge
wiring are kept; the area record and the sub-vertex bookkeeping of the
source never read or write in_edges and out_edges and are omitted. -/
structure Vertex where
  name : String
  in_edges : List String
  out_edges : List String

/-- Vertex.add_in of graph.py lines 44-45: it appends to out_edges. -/
def add_in (v : Vertex) (e : String) : Vertex :=
  ⟨v.name, v.in_edges, v.out_edges ++ [e]⟩

/-- Vertex.add_out of graph.py lines 47-48: it appends to in_edges. -/
def add_out (v : Vertex) (e : String) : Vertex :=
  ⟨v.name, v.in_edges ++ [e], v.out_edges⟩

/-- Edge record of graph.py lines 16-27; src and dst hold the name of the
vertex object once assigned. The addr_width field is computed by a float
log2 in the source and is not modelled. -/
structure EdgeR where
  name : String
  src : Option String
  dst : Option String
  width : Int
  depth : Int

/-- Python mutates shared Vertex objects; vertices are uniquely named, so
the object store is modelled as a map from vertex name to Vertex. -/
abbrev VStore := String → Vertex

/-- one portarg iteration of Graph.initEdges (graph.py lines 239-269).
The source runs three successive if-chains over the same two conditions:
the dout branch sets e.dst and then calls e.dst.add_in(e); the din branch
sets e.src and then calls e.src.add_out(e). The third chain only mutates
sub-vertex objects held in v.sub_vertices, which are distinct objects from
the store vertices, so it is omitted. A missing edge_to_vertex entry is a
Python KeyError, modelled as an error. -/
def initEdges_port (edge_to_vertex : String → Option String) (store : VStore) (e : EdgeR)
    (port : String × String) : Except String (VStore × EdgeR) :=
  let formal_raw := port.1
  let actual_raw := port.2
  if pyIn "_dout" actual_raw && pyIn "_dout" formal_raw then
    match edge_to_vertex actual_raw with
    | none => Except.error "KeyError"
    | some vn =>
        Except.ok (fun n => if n = vn then add_in (store n) e.name else store n,
                   ⟨e.name, e.src, some vn, e.width, e.depth⟩)
  else if pyIn "_din" actual_raw && pyIn "_din" formal_raw then
    match edge_to_vertex actual_raw with
    | none => Except.error "KeyError"
    | some vn =>
        Except.ok (fun n => if n = vn then add_out (store n) e.name else store n,
                   ⟨e.name, some vn, e.dst, e.width, e.depth⟩)
  else Except.ok (store, e)

/-- the portarg loop of Graph.initEdges, processing ports in order. -/
def initEdges_ports (edge_to_vertex : String → Option String) :
    List (String × String) → VStore → EdgeR → Except String (VStore × EdgeR)
  | [], store, e => Except.ok (store, e)
  | p :: rest, store, e =>
    match initEdges_port edge_to_vertex store e p with
    | Except.error msg => Except.error msg
    | Except.ok r => initEdges_ports edge_to_vertex rest r.1 r.2

/-- Graph.initEdges for one FIFO instance (graph.py lines 221-271): create
the Edge record, then process every (portname, argname) pair of the
instance. The width and depth values are extracted by the external
formator and enter as inputs. -/
def initEdges (edge_to_vertex : String → Option String) (node_name : String)
    (w d : Int) (ports : List (String × String)) (store : VStore) :
    Except String (VStore × EdgeR) :=
  initEdges_ports edge_to_vertex ports store ⟨node_name, none, none, w, d⟩

end GraphPy

/-! Part 2: the two outer binary searches of Partition.py (lines 166-267).
Both loops are do-while loops over rational bounds; the partitioner call of
each probe is abstracted as a function from the probed cap to the returned
vertex-to-slot mapping (the remaining arguments of the call are fixed for
the whole search). The source asserts lo <= hi before the loop; the
assertion is not modelled and theorems assume the bounds ordered where it
matters. The loop halves hi - lo at every iteration, so it terminates; the
definitions below make the iteration count explicit as fuel, with bsFuel
proved sufficient. -/

/-- state of the binary search loop: the best mapping so far, the cap it
was found at (None before the first success), and the current bounds. -/
structure BSState (α : Type) where
  best : List α
  found : Option ℚ
  hi : ℚ
  lo : ℚ

/-- the midpoint probed next, curr_limit = (hi + lo) / 2. -/
def midOf {α : Type} (s : BSState α) : ℚ := (s.hi + s.lo) / 2

/-- one iteration of the while-loop body: probe the midpoint; on success
record the mapping and shrink hi to the midpoint, on failure raise lo. -/
def bstep {α : Type} (probe : ℚ → List α) (s : BSState α) : BSState α :=
  let mid := midOf s
  let v2s := probe mid
  if v2s.isEmpty then ⟨s.best, s.found, s.hi, mid⟩
  else ⟨v2s, some mid, mid, s.lo⟩

/-- the do-while loop: run one iteration, stop when hi - lo < thr, else
continue. The fuel argument only bounds the number of iterations; with the
fuel chosen in the wrappers below the zero-fuel case is never reached. -/
def bsearchGo {α : Type} (probe : ℚ → List α) (thr : ℚ) :
    ℕ → BSState α → List α × Option ℚ
  | 0, s => (s.best, s.found)
  | fuel+1, s =>
    let s2 := bstep probe s
    if s2.hi - s2.lo < thr then (s2.best, s2.found) else bsearchGo probe thr fuel s2

/-- iteration bound: the gap after k iterations is (hi - lo) / 2 ^ k, so
this many iterations always reach the stopping threshold. -/
def bsFuel (d thr : ℚ) : ℕ := (Int.ceil (d / thr)).toNat + 1

/-- probed caps, in probe order (same loop as bsearchGo): models which
curr_limit values the routine hands to the partitioner. -/
def bsearchProbes {α : Type} (probe : ℚ → List α) (thr : ℚ) :
    ℕ → BSState α → List ℚ
  | 0, _ => []
  | fuel+1, s =>
    let s2 := bstep probe s
    midOf s :: (if s2.hi - s2.lo < thr then [] else bsearchProbes probe thr fuel s2)

/-- starting state of either search: best = empty dict, found cap = None,
hi = the max limit, lo = the min limit. -/
def bsInit {α : Type} (hi lo : ℚ) : BSState α := ⟨[], none, hi, lo⟩

/-- the loop state after k iterations of a search started at bounds
(hi, lo): the iterate of the loop body on the starting state. -/
def bsIter {α : Type} (probe : ℚ → List α) (hi lo : ℚ) (k : ℕ) : BSState α :=
  (bstep probe)^[k] (bsInit hi lo)

/-- binary_search_slr_crossing_limit of Partition.py lines 166-215:
threshold 500, returns (curr_best_v2s, curr_min_slr_limit). -/
def binary_search_slr_crossing_limit {α : Type} (probe : ℚ → List α)
    (min_slr_width_limit max_slr_width_limit : ℚ) : List α × Option ℚ :=
  bsearchGo probe 500 (bsFuel (max_slr_width_limit - min_slr_width_limit) 500)
    (bsInit max_slr_width_limit min_slr_width_limit)

/-- binary_search_area_limit of Partition.py lines 218-267: threshold 0.01,
returns (curr_best_v2s, curr_min_usage). -/
def binary_search_area_limit {α : Type} (probe : ℚ → List α)
    (min_area_limit max_area_limit : ℚ) : List α × Option ℚ :=
  bsearchGo probe (1/100) (bsFuel (max_area_limit - min_area_limit) (1/100))
    (bsInit max_area_limit min_area_limit)

/-- probe trace of the crossing search. -/
def crossing_search_probes {α : Type} (probe : ℚ → List α)
    (min_w max_w : ℚ) : List ℚ :=
  bsearchProbes probe 500 (bsFuel (max_w - min_w) 500) (bsInit (α := α) max_w min_w)

/-- probe trace of the area search. -/
def area_search_probes {α : Type} (probe : ℚ → List α)
    (min_a max_a : ℚ) : List ℚ :=
  bsearchProbes probe (1/100) (bsFuel (max_a - min_a) (1/100)) (bsInit (α := α) max_a min_a)

/-- partition_area_prioritized of Partition.py lines 62-111. The
partitioner argument abstracts the bipartition solver as a function of the
two varied caps (area cap first, crossing cap second); the other solver
arguments are fixed. Step 1 runs the area search with the max crossing
limit; on failure the function returns the empty mapping; otherwise the
crossing search runs at the found area cap (the source passes
curr_area_limit, which is Some whenever curr_v2s is non-empty; getD
realizes that access), and the crossing search result is returned unless
empty, in which case the step-1 mapping is returned. -/
def partition_area_prioritized {α : Type} (partitioner : ℚ → ℚ → List α)
    (min_area_limit max_area_limit min_slr_width_limit max_slr_width_limit : ℚ) :
    List α :=
  let r1 := binary_search_area_limit (fun a => partitioner a max_slr_width_limit)
    min_area_limit max_area_limit
  if r1.1.isEmpty then []
  else
    let r2 := binary_search_slr_crossing_limit
      (fun w => partitioner (r1.2.getD 0) w) min_slr_width_limit max_slr_width_limit
    if r2.1.isEmpty then r1.1 else r2.1

/-! Part 3: four_way_partition of FourWayPartition.py (lines 16-47), the
single-budget retry loop, and the call-site parameter binding of the
FOUR_WAY_PARTITION path of Partition.py. -/

/-- models the Python round(x, 2): round to the nearest multiple of 1/100.
Python rounds ties to even while Mathlib round rounds ties up; no value
reached by the retry loop sits on a tie, and no claim depends on ties. -/
def round2 (q : ℚ) : ℚ := ((round (q * 100) : ℤ) : ℚ) / 100

/-- the sequence of area caps probed by the retry loop: start at the
reference usage value, then repeatedly add 0.02 and round to two
decimals. -/
def capSeqF (a : ℚ) : ℕ → ℚ
  | 0 => a
  | n + 1 => round2 (capSeqF a n + 1/50)

/-- fuel for the retry loop: every iteration raises the cap by at least
0.015 = 3/200, so this count of iterations reaches the hard limit 2. -/
def fourWayFuel (a : ℚ) : ℕ := (Int.ceil ((2 - a) * 200)).toNat + 1

/-- the while-loop of four_way_partition: call the inner solver at the
current cap; on a non-empty result return it; otherwise add the delta 0.02,
round to two decimals, return the empty mapping once the cap reaches or
exceeds the hard limit 2, else retry. delta and hard limit are the source
defaults (the only values used). The zero-fuel case is unreachable for the
fuel chosen in four_way_partition below. -/
def fourWayGo {α : Type} (inner : ℚ → List α) : ℕ → ℚ → List α
  | 0, _ => []
  | fuel+1, area =>
    let v2s := inner area
    if v2s.isEmpty then
      let a2 := round2 (area + 1/50)
      if 2 ≤ a2 then [] else fourWayGo inner fuel a2
    else v2s

/-- four_way_partition of FourWayPartition.py lines 16-47. The inner
argument abstracts the private solver as a function of the area cap and
the three boundary width limits (slr_0_1, slr_1_2, slr_2_3); the remaining
solver arguments are fixed. The source calls the private solver with six
positional arguments, so the three width limits always keep their default
value 12000: no crossing cap parameter exists on this path. -/
def four_way_partition {α : Type} (inner : ℚ → ℚ → ℚ → ℚ → List α)
    (ref_usage : ℚ) : List α :=
  fourWayGo (fun a => inner a 12000 12000 12000) (fourWayFuel ref_usage) ref_usage

/-- the formal parameter list of four_way_partition, in declaration order
(FourWayPartition.py lines 16-24). -/
def four_way_partition_params : List String :=
  ["init_v2s", "slot_manager", "grouping_constraints", "pre_assignments",
   "ref_usage_ratio", "max_search_time", "max_usage_ratio_delta",
   "hard_limit_max_usage"]

/-- the actual arguments of the partitioner call inside
binary_search_slr_crossing_limit (Partition.py lines 192-200), in call
order; all are passed positionally. -/
def crossing_probe_actuals : List String :=
  ["init_v2s", "grouping_constraints", "pre_assignments", "slot_manager",
   "area_limit", "curr_slr_limit", "max_search_time"]

/-- the positional parameter binding realized by the call: k-th actual to
k-th formal parameter. -/
def crossing_probe_binding : List (String × String) :=
  List.zip four_way_partition_params crossing_probe_actuals

/-! Part 4: the ILP model pieces of FourWayPartition.py used by the claims:
slot lookup (lines 98-124), result extraction (lines 288-309), the private
solver wrapper (lines 50-95) with the MIP solve abstracted as an oracle,
pre-assignment constraints (lines 249-264) and area constraints
(lines 127-150). Binary decision variables take values in {0, 1}; a
variable valuation maps each vertex to the natural number value of its
variable. -/

/-- the optimization status enumeration of the python-mip library. -/
inductive OptimizationStatus where
  | ERROR
  | OPTIMAL
  | INFEASIBLE
  | UNBOUNDED
  | FEASIBLE
  | INT_INFEASIBLE
  | NO_SOLUTION_FOUND
  | LOADED
  | CUTOFF
  | OTHER
deriving DecidableEq

/-- the (y1, y2) index pairs in the order of product(range(2), range(2)). -/
def prod01 : List (ℕ × ℕ) := [(0,0), (0,1), (1,0), (1,1)]

/-- the closure returned by _get_slot_by_idx_closure (lines 98-112):
index the list of the four leaf slots by y1 * 2 + y2. Python raises on an
out-of-range index; getD with an explicit default stands in for the access,
and all uses keep the index below the length. -/
def get_slot_by_idx_closure {S : Type} (all_leaf_slots : List S) (dflt : S) :
    ℕ → ℕ → S :=
  fun y1 y2 => all_leaf_slots.getD (y1 * 2 + y2) dflt

/-- _get_slot_to_idx (lines 115-124): the inverse dictionary from leaf
slot to its (y1, y2) pair, built in product order. -/
def get_slot_to_idx {S : Type} (func_get_slot_by_idx : ℕ → ℕ → S) :
    List (S × (ℕ × ℕ)) :=
  prod01.map (fun p => (func_get_slot_by_idx p.1 p.2, p))

/-- _get_results (lines 288-309): when the status is OPTIMAL or FEASIBLE,
read the two coordinate variables of every vertex and map through the slot
lookup; for every other status return the empty mapping. The function is
total: no optimization outcome raises. -/
def get_results {V S : Type} (status : OptimizationStatus) (val_y1 val_y2 : V → ℕ)
    (v_list : List V) (func_get_slot_by_idx : ℕ → ℕ → S) : List (V × S) :=
  match status with
  | OptimizationStatus.OPTIMAL =>
      v_list.map (fun v => (v, func_get_slot_by_idx (val_y1 v) (val_y2 v)))
  | OptimizationStatus.FEASIBLE =>
      v_list.map (fun v => (v, func_get_slot_by_idx (val_y1 v) (val_y2 v)))
  | _ => []

/-- _four_way_partition (lines 50-95): v_list is the key list of init_v2s;
the model building (variables, area, crossing, pre-assignment, grouping
and objective constraints, embedded separately below) feeds the MIP
solver, whose outcome m.optimize is abstracted by the solver argument: the
final status together with the extracted integer values of the binary
coordinate variables. The returned mapping comes from _get_results over
the leaf-slot closure. -/
def four_way_partition_body {V S : Type} (init_v2s : List (V × S))
    (all_leaf_slots : List S) (dflt : S)
    (solver : OptimizationStatus × ((V → ℕ) × (V → ℕ))) : List (V × S) :=
  let v_list := init_v2s.map Prod.fst
  get_results solver.1 solver.2.1 solver.2.2 v_list
    (get_slot_by_idx_closure all_leaf_slots dflt)

/-- a coordinate equality constraint added by _add_pre_assignment:
fix the y1 or y2 variable of a vertex to a constant. -/
inductive CoordConstr (V : Type) where
  | y1eq (v : V) (k : ℕ)
  | y2eq (v : V) (k : ℕ)

/-- the vertex a coordinate constraint speaks about. -/
def coord_constr_vertex {V : Type} : CoordConstr V → V
  | CoordConstr.y1eq v _ => v
  | CoordConstr.y2eq v _ => v

/-- the constraints the inner slot loop of _add_pre_assignment adds for one
pre-assignment (v, expect_slot): for every available leaf slot that
containsChildSlot the expected slot, fix both coordinates of v to the leaf
index. When no leaf contains the expected slot the loop adds nothing. -/
def pre_assign_one {V S : Type} (containsChildSlot : S → S → Bool)
    (slot_to_idx : List (S × (ℕ × ℕ))) (v : V) (expect_slot : S) :
    List (CoordConstr V) :=
  slot_to_idx.flatMap (fun q =>
    if containsChildSlot q.1 expect_slot then
      [CoordConstr.y1eq v q.2.1, CoordConstr.y2eq v q.2.2]
    else [])

/-- _add_pre_assignment (lines 249-264): iterate the pre-assignment
dictionary in order; a pre-assigned vertex absent from v_list fires the
assert (modelled as an error); otherwise collect the constraints of the
slot loop. -/
def add_pre_assignment {V S : Type} [DecidableEq V] (v_list : List V)
    (slot_to_idx : List (S × (ℕ × ℕ))) (containsChildSlot : S → S → Bool) :
    List (V × S) → Except String (List (CoordConstr V))
  | [] => Except.ok []
  | (v, expect_slot) :: rest =>
    if v ∈ v_list then
      match add_pre_assignment v_list slot_to_idx containsChildSlot rest with
      | Except.ok cs =>
          Except.ok (pre_assign_one containsChildSlot slot_to_idx v expect_slot ++ cs)
      | Except.error msg => Except.error msg
    else Except.error "ERROR: user has forced the location of a non-existing module"

/-- the linear constraints generated by _add_area_constraints, one
constructor per m += statement: the three inequalities that make the
pick variable the AND of the two coordinate choices, and the capacity
bound of one (resource, leaf) pair. -/
inductive AreaConstr (V R : Type) where
  | pick_le_fst (r : R) (y1 y2 : ℕ) (v : V)
  | pick_le_snd (r : R) (y1 y2 : ℕ) (v : V)
  | and_lower (r : R) (y1 y2 : ℕ) (v : V)
  | cap_bound (r : R) (y1 y2 : ℕ)

/-- the choose lambda of _add_area_constraints line 138: x when the index
is 1, else 1 - x. -/
def choose (x : ℚ) (num : ℕ) : ℚ := if num = 1 then x else 1 - x

/-- _add_area_constraints (lines 127-150): for every resource, every
(y1, y2) pair and every vertex, the three AND-encoding inequalities over
the fresh pick variable, followed by the capacity bound of the pair. -/
def add_area_constraints {V R : Type} (resource_types : List R) (v_list : List V) :
    List (AreaConstr V R) :=
  resource_types.flatMap (fun r =>
    prod01.flatMap (fun p =>
      (v_list.flatMap (fun v =>
        [AreaConstr.pick_le_fst r p.1 p.2 v,
         AreaConstr.pick_le_snd r p.1 p.2 v,
         AreaConstr.and_lower r p.1 p.2 v]))
      ++ [AreaConstr.cap_bound r p.1 p.2]))

/-- satisfaction of one generated area constraint by a valuation: ay1 and
ay2 value the coordinate variables, pick values the auxiliary AND
variables (one per resource, pair and vertex, matching the fresh
m.add_var per resource iteration of the source), bundled is
getVertexAndInboundFIFOArea, slot_area the per-resource area of the leaf
at an index pair, max_usage the usage cap. -/
def area_constr_holds {V R : Type} (ay1 ay2 : V → ℚ) (pick : R → ℕ → ℕ → V → ℚ)
    (bundled : V → R → ℚ) (slot_area : ℕ → ℕ → R → ℚ) (max_usage : ℚ)
    (v_list : List V) : AreaConstr V R → Prop
  | AreaConstr.pick_le_fst r y1 y2 v => pick r y1 y2 v ≤ choose (ay1 v) y1
  | AreaConstr.pick_le_snd r y1 y2 v => pick r y1 y2 v ≤ choose (ay2 v) y2
  | AreaConstr.and_lower r y1 y2 v =>
      choose (ay1 v) y1 + choose (ay2 v) y2 - pick r y1 y2 v ≤ 1
  | AreaConstr.cap_bound r y1 y2 =>
      (v_list.map (fun v => pick r y1 y2 v * bundled v r)).sum
        ≤ slot_area y1 y2 r * max_usage

/-- Modelled from the spec: the RESOURCE_TYPES constant lives in
autobridge.Floorplan.Utilities, which is not under src; the spec lists the
resource kinds LUT, FF, BRAM, DSP, URAM. -/
inductive Resource where
  | BRAM
  | DSP
  | FF
  | LUT
  | URAM
deriving DecidableEq

/-- Modelled from the spec: the resource list iterated by the area
constraints. -/
def RESOURCE_TYPES : List Resource :=
  [Resource.BRAM, Resource.DSP, Resource.FF, Resource.LUT, Resource.URAM]

/-- satisfaction of a generated area constraint is decidable: every
constraint denotes a rational inequality. -/
instance area_constr_holds_decidable {V R : Type} (ay1 ay2 : V → ℚ)
    (pick : R → ℕ → ℕ → V → ℚ) (bundled : V → R → ℚ) (slot_area : ℕ → ℕ → R → ℚ)
    (max_usage : ℚ) (v_list : List V) :
    (c : AreaConstr V R) →
      Decidable (area_constr_holds ay1 ay2 pick bundled slot_area max_usage v_list c)
  | AreaConstr.pick_le_fst _ _ _ _ => inferInstanceAs (Decidable (_ ≤ _))
  | AreaConstr.pick_le_snd _ _ _ _ => inferInstanceAs (Decidable (_ ≤ _))
  | AreaConstr.and_lower _ _ _ _ => inferInstanceAs (Decidable (_ ≤ _))
  | AreaConstr.cap_bound _ _ _ => inferInstanceAs (Decidable (_ ≤ _))

/-- concrete valuation data for evaluating the area constraint system on a
one-vertex instance: the pick valuation selecting the (0, 0) leaf. -/
def w8pick : Resource → ℕ → ℕ → ℕ → ℚ :=
  fun _ y1 y2 _ => if y1 = 0 ∧ y2 = 0 then 1 else 0

/-- concrete coordinate valuation: both coordinates zero. -/
def w8zero : ℕ → ℚ := fun _ => 0

/-- concrete bundled area: one unit of every resource. -/
def w8bund : ℕ → Resource → ℚ := fun _ _ => 1

/-- concrete leaf capacities: ten units of every resource. -/
def w8area : ℕ → ℕ → Resource → ℚ := fun _ _ _ => 10

/-! Part 5: theorems. First the equation lemmas and the helper lemmas of
the binary searches, then the claim theorems. -/

theorem bsearchGo_succ {α : Type} (probe : ℚ → List α) (thr : ℚ) (fuel : ℕ)
    (s : BSState α) :
    bsearchGo probe thr (fuel + 1) s
      = if (bstep probe s).hi - (bstep probe s).lo < thr
        then ((bstep probe s).best, (bstep probe s).found)
        else bsearchGo probe thr fuel (bstep probe s) := rfl

theorem bsearchProbes_succ {α : Type} (probe : ℚ → List α) (thr : ℚ) (fuel : ℕ)
    (s : BSState α) :
    bsearchProbes probe thr (fuel + 1) s
      = midOf s :: (if (bstep probe s).hi - (bstep probe s).lo < thr
                    then []
                    else bsearchProbes probe thr fuel (bstep probe s)) := rfl

theorem bstep_of_empty {α : Type} (probe : ℚ → List α) (s : BSState α)
    (h : probe (midOf s) = []) :
    bstep probe s = ⟨s.best, s.found, s.hi, midOf s⟩ := by
  simp [bstep, h]

theorem bstep_of_nonempty {α : Type} (probe : ℚ → List α) (s : BSState α)
    (h : probe (midOf s) ≠ []) :
    bstep probe s = ⟨probe (midOf s), some (midOf s), midOf s, s.lo⟩ := by
  simp only [bstep]
  rw [if_neg]
  simpa using h

theorem bstep_gap {α : Type} (probe : ℚ → List α) (s : BSState α) :
    (bstep probe s).hi - (bstep probe s).lo = (s.hi - s.lo) / 2 := by
  by_cases h : probe (midOf s) = []
  · rw [bstep_of_empty probe s h]
    show s.hi - midOf s = (s.hi - s.lo) / 2
    unfold midOf
    ring
  · rw [bstep_of_nonempty probe s h]
    show midOf s - s.lo = (s.hi - s.lo) / 2
    unfold midOf
    ring

theorem iterate_gap {α : Type} (probe : ℚ → List α) (s : BSState α) :
    ∀ k, ((bstep probe)^[k] s).hi - ((bstep probe)^[k] s).lo = (s.hi - s.lo) / 2 ^ k
  | 0 => by simp
  | k + 1 => by
    rw [Function.iterate_succ_apply', bstep_gap, iterate_gap probe s k, pow_succ]
    ring

theorem bsFuel_pos (d thr : ℚ) : 1 ≤ bsFuel d thr := by
  unfold bsFuel
  omega

theorem bsFuel_spec {d thr : ℚ} (hthr : 0 < thr) : d / 2 ^ bsFuel d thr < thr := by
  have h2 : (0 : ℚ) < 2 ^ bsFuel d thr := by positivity
  rcases le_or_lt d 0 with hd | hd
  · have hle : d / 2 ^ bsFuel d thr ≤ 0 := by
      rw [div_nonpos_iff]
      right
      exact ⟨hd, h2.le⟩
    exact lt_of_le_of_lt hle hthr
  · set c : ℤ := Int.ceil (d / thr) with hc
    have hcpos : (0 : ℤ) < c := Int.ceil_pos.mpr (div_pos hd hthr)
    have hle : d / thr ≤ (c : ℚ) := Int.le_ceil _
    have hnat : c.toNat + 2 ≤ 2 ^ (c.toNat + 1) := by
      have := Nat.lt_two_pow (c.toNat + 1)
      omega
    have hq : ((c.toNat : ℚ) + 2) ≤ (2 : ℚ) ^ (c.toNat + 1) := by
      calc ((c.toNat : ℚ) + 2) = ((c.toNat + 2 : ℕ) : ℚ) := by push_cast; ring
        _ ≤ ((2 ^ (c.toNat + 1) : ℕ) : ℚ) := by exact_mod_cast hnat
        _ = (2 : ℚ) ^ (c.toNat + 1) := by push_cast; ring
    have hcq : ((c.toNat : ℚ)) = (c : ℚ) := by
      exact_mod_cast congrArg (fun z : ℤ => (z : ℚ)) (Int.toNat_of_nonneg hcpos.le)
    have hFuel : bsFuel d thr = c.toNat + 1 := rfl
    have hlt : d / thr < (2 : ℚ) ^ bsFuel d thr := by
      rw [hFuel]
      calc d / thr ≤ (c : ℚ) := hle
        _ < (c : ℚ) + 2 := by linarith
        _ = (c.toNat : ℚ) + 2 := by rw [hcq]
        _ ≤ (2 : ℚ) ^ (c.toNat + 1) := hq
    rw [div_lt_iff₀ h2]
    have := (div_lt_iff₀ hthr).mp hlt
    linarith

theorem bsearch_stop_exists {α : Type} (probe : ℚ → List α) (thr : ℚ) (hthr : 0 < thr)
    (s : BSState α) :
    ∃ K, 1 ≤ K ∧ K ≤ bsFuel (s.hi - s.lo) thr
      ∧ ((bstep probe)^[K] s).hi - ((bstep probe)^[K] s).lo < thr
      ∧ ∀ j, 1 ≤ j → j < K →
          ¬ (((bstep probe)^[j] s).hi - ((bstep probe)^[j] s).lo < thr) := by
  have hex : ∃ k, (s.hi - s.lo) / 2 ^ (k + 1) < thr := by
    refine ⟨bsFuel (s.hi - s.lo) thr - 1, ?_⟩
    have h1 := bsFuel_pos (s.hi - s.lo) thr
    have := bsFuel_spec (d := s.hi - s.lo) hthr
    have heq : bsFuel (s.hi - s.lo) thr - 1 + 1 = bsFuel (s.hi - s.lo) thr := by omega
    rwa [heq]
  classical
  let K := Nat.find hex + 1
  refine ⟨K, by omega, ?_, ?_, ?_⟩
  · have h1 := bsFuel_pos (s.hi - s.lo) thr
    have hfind : Nat.find hex ≤ bsFuel (s.hi - s.lo) thr - 1 := by
      apply Nat.find_le
      have := bsFuel_spec (d := s.hi - s.lo) hthr
      have heq : bsFuel (s.hi - s.lo) thr - 1 + 1 = bsFuel (s.hi - s.lo) thr := by omega
      rwa [heq]
    omega
  · rw [iterate_gap]
    exact Nat.find_spec hex
  · intro j hj1 hjK
    rw [iterate_gap]
    have : j - 1 < Nat.find hex := by omega
    have hmin := Nat.find_min hex this
    have heq : j - 1 + 1 = j := by omega
    rwa [heq] at hmin

theorem bsearchGo_eq_iterate {α : Type} (probe : ℚ → List α) (thr : ℚ) :
    ∀ (fuel K : ℕ) (s : BSState α), 1 ≤ K → K ≤ fuel →
      (((bstep probe)^[K] s).hi - ((bstep probe)^[K] s).lo < thr) →
      (∀ j, 1 ≤ j → j < K →
        ¬ (((bstep probe)^[j] s).hi - ((bstep probe)^[j] s).lo < thr)) →
      bsearchGo probe thr fuel s
        = (((bstep probe)^[K] s).best, ((bstep probe)^[K] s).found)
  | 0, K, s, hK1, hKf, _, _ => by omega
  | fuel + 1, K, s, hK1, hKf, hstop, hmin => by
    by_cases h : (bstep probe s).hi - (bstep probe s).lo < thr
    · have hK : K = 1 := by
        by_contra hne
        have h2 : 2 ≤ K := by omega
        exact hmin 1 le_rfl (by omega) (by rwa [Function.iterate_one])
      subst hK
      rw [bsearchGo_succ, if_pos h, Function.iterate_one]
    · have hK2 : 2 ≤ K := by
        by_contra hne
        have : K = 1 := by omega
        subst this
        rw [Function.iterate_one] at hstop
        exact h hstop
      have hrec := bsearchGo_eq_iterate probe thr fuel (K - 1) (bstep probe s)
        (by omega) (by omega)
        (by
          have heq : (bstep probe)^[K - 1] (bstep probe s) = (bstep probe)^[K] s := by
            rw [← Function.iterate_succ_apply]
            congr 1
            omega
          rwa [heq])
        (by
          intro j hj1 hjK
          have heq : (bstep probe)^[j] (bstep probe s) = (bstep probe)^[j + 1] s := by
            rw [← Function.iterate_succ_apply]
          rw [heq]
          exact hmin (j + 1) (by omega) (by omega))
      rw [bsearchGo_succ, if_neg h, hrec]
      have heq : (bstep probe)^[K - 1] (bstep probe s) = (bstep probe)^[K] s := by
        rw [← Function.iterate_succ_apply]
        congr 1
        omega
      rw [heq]

theorem iterate_best_const {α : Type} (probe : ℚ → List α) (s : BSState α) :
    ∀ k, (∀ i, i < k → probe (midOf ((bstep probe)^[i] s)) = []) →
      ((bstep probe)^[k] s).best = s.best ∧ ((bstep probe)^[k] s).found = s.found
  | 0, _ => ⟨rfl, rfl⟩
  | k + 1, h => by
    rw [Function.iterate_succ_apply', bstep_of_empty probe _ (h k (by omega))]
    exact iterate_best_const probe s k (fun i hi => h i (by omega))

theorem iterate_last_success {α : Type} (probe : ℚ → List α) (s : BSState α)
    (i k : ℕ) (hik : i < k)
    (hsucc : probe (midOf ((bstep probe)^[i] s)) ≠ [])
    (hafter : ∀ i2, i < i2 → i2 < k → probe (midOf ((bstep probe)^[i2] s)) = []) :
    ((bstep probe)^[k] s).best = probe (midOf ((bstep probe)^[i] s))
    ∧ ((bstep probe)^[k] s).found = some (midOf ((bstep probe)^[i] s)) := by
  obtain ⟨m, rfl⟩ : ∃ m, k = (i + 1) + m := ⟨k - (i + 1), by omega⟩
  have hshift : (bstep probe)^[(i + 1) + m] s
      = (bstep probe)^[m] ((bstep probe)^[i + 1] s) := by
    rw [add_comm (i + 1) m, Function.iterate_add_apply]
  have hconst := iterate_best_const probe ((bstep probe)^[i + 1] s) m (by
    intro j hj
    have heq : (bstep probe)^[j] ((bstep probe)^[i + 1] s)
        = (bstep probe)^[j + (i + 1)] s :=
      (Function.iterate_add_apply _ j (i + 1) s).symm
    rw [heq]
    exact hafter (j + (i + 1)) (by omega) (by omega))
  have hstep : (bstep probe)^[i + 1] s = bstep probe ((bstep probe)^[i] s) :=
    Function.iterate_succ_apply' _ _ _
  rw [hshift, hconst.1, hconst.2, hstep, bstep_of_nonempty probe _ hsucc]
  exact ⟨rfl, rfl⟩

theorem bsearchGo_allfail {α : Type} (probe : ℚ → List α) (thr : ℚ)
    (hall : ∀ c, probe c = []) :
    ∀ (fuel : ℕ) (s : BSState α), bsearchGo probe thr fuel s = (s.best, s.found)
  | 0, s => rfl
  | fuel + 1, s => by
    have hs2 : bstep probe s = ⟨s.best, s.found, s.hi, midOf s⟩ :=
      bstep_of_empty probe s (hall _)
    rw [bsearchGo_succ]
    by_cases h : (bstep probe s).hi - (bstep probe s).lo < thr
    · rw [if_pos h, hs2]
    · rw [if_neg h, bsearchGo_allfail probe thr hall fuel _, hs2]

theorem bstep_none_iff {α : Type} (probe : ℚ → List α) (s : BSState α)
    (h : s.best = [] ↔ s.found = none) :
    ((bstep probe s).best = [] ↔ (bstep probe s).found = none) := by
  by_cases hp : probe (midOf s) = []
  · rw [bstep_of_empty probe s hp]
    exact h
  · rw [bstep_of_nonempty probe s hp]
    simp [hp]

theorem bsearchGo_none_iff {α : Type} (probe : ℚ → List α) (thr : ℚ) :
    ∀ (fuel : ℕ) (s : BSState α), (s.best = [] ↔ s.found = none) →
      ((bsearchGo probe thr fuel s).1 = [] ↔ (bsearchGo probe thr fuel s).2 = none)
  | 0, s, h => h
  | fuel + 1, s, h => by
    rw [bsearchGo_succ]
    by_cases hc : (bstep probe s).hi - (bstep probe s).lo < thr
    · rw [if_pos hc]
      exact bstep_none_iff probe s h
    · rw [if_neg hc]
      exact bsearchGo_none_iff probe thr fuel _ (bstep_none_iff probe s h)

theorem bsIter_succ {α : Type} (probe : ℚ → List α) (hi lo : ℚ) (j : ℕ) :
    bsIter probe hi lo (j + 1) = bstep probe (bsIter probe hi lo j) :=
  Function.iterate_succ_apply' _ _ _

theorem bsearch_full_char {α : Type} (probe : ℚ → List α) (thr : ℚ) (hthr : 0 < thr)
    (hi lo : ℚ) :
    ∃ K, 1 ≤ K
      ∧ ((bsIter probe hi lo K).hi - (bsIter probe hi lo K).lo < thr)
      ∧ (∀ j, 1 ≤ j → j < K →
          ¬ ((bsIter probe hi lo j).hi - (bsIter probe hi lo j).lo < thr))
      ∧ bsearchGo probe thr (bsFuel (hi - lo) thr) (bsInit hi lo)
          = ((bsIter probe hi lo K).best, (bsIter probe hi lo K).found)
      ∧ (∀ j, probe (midOf (bsIter probe hi lo j)) = [] →
          bsIter probe hi lo (j + 1)
            = ⟨(bsIter probe hi lo j).best, (bsIter probe hi lo j).found,
               (bsIter probe hi lo j).hi, midOf (bsIter probe hi lo j)⟩)
      ∧ (∀ j, probe (midOf (bsIter probe hi lo j)) ≠ [] →
          bsIter probe hi lo (j + 1)
            = ⟨probe (midOf (bsIter probe hi lo j)), some (midOf (bsIter probe hi lo j)),
               midOf (bsIter probe hi lo j), (bsIter probe hi lo j).lo⟩)
      ∧ (∀ i, i < K → probe (midOf (bsIter probe hi lo i)) ≠ [] →
          (∀ i2, i < i2 → i2 < K → probe (midOf (bsIter probe hi lo i2)) = []) →
          bsearchGo probe thr (bsFuel (hi - lo) thr) (bsInit hi lo)
            = (probe (midOf (bsIter probe hi lo i)),
               some (midOf (bsIter probe hi lo i)))) := by
  have hinit : (bsInit (α := α) hi lo).hi - (bsInit (α := α) hi lo).lo = hi - lo := rfl
  obtain ⟨K, hK1, hKf, hstop, hmin⟩ := bsearch_stop_exists probe thr hthr (bsInit hi lo)
  rw [hinit] at hKf
  have hgo := bsearchGo_eq_iterate probe thr (bsFuel (hi - lo) thr) K (bsInit hi lo)
    hK1 hKf hstop hmin
  refine ⟨K, hK1, hstop, hmin, hgo, ?_, ?_, ?_⟩
  · intro j hj
    rw [bsIter_succ, bstep_of_empty probe _ hj]
  · intro j hj
    rw [bsIter_succ, bstep_of_nonempty probe _ hj]
  · intro i hiK hsucc hafter
    have hlast := iterate_last_success probe (bsInit hi lo) i K hiK hsucc hafter
    rw [hgo]
    show (((bstep probe)^[K] (bsInit hi lo)).best, ((bstep probe)^[K] (bsInit hi lo)).found)
        = (probe (midOf ((bstep probe)^[i] (bsInit hi lo))),
           some (midOf ((bstep probe)^[i] (bsInit hi lo))))
    rw [hlast.1, hlast.2]

/-- Claim C4: in both outer binary searches every probe uses the midpoint
(hi + lo) / 2 of the current interval; a successful probe records its
mapping and sets hi to that midpoint while a failed probe sets lo to it;
the area search stops exactly at the first iteration after which
hi - lo < 0.01 and the crossing search exactly at the first after which
hi - lo < 500; and each search returns the best mapping and cap recorded
at its last successful probe. -/
theorem claim_C4 {α : Type} (probeW probeA : ℚ → List α) (wlo whi alo ahi : ℚ) :
    (∃ K, 1 ≤ K
      ∧ ((bsIter probeW whi wlo K).hi - (bsIter probeW whi wlo K).lo < 500)
      ∧ (∀ j, 1 ≤ j → j < K →
          ¬ ((bsIter probeW whi wlo j).hi - (bsIter probeW whi wlo j).lo < 500))
      ∧ binary_search_slr_crossing_limit probeW wlo whi
          = ((bsIter probeW whi wlo K).best, (bsIter probeW whi wlo K).found)
      ∧ (∀ j, probeW (midOf (bsIter probeW whi wlo j)) = [] →
          bsIter probeW whi wlo (j + 1)
            = ⟨(bsIter probeW whi wlo j).best, (bsIter probeW whi wlo j).found,
               (bsIter probeW whi wlo j).hi, midOf (bsIter probeW whi wlo j)⟩)
      ∧ (∀ j, probeW (midOf (bsIter probeW whi wlo j)) ≠ [] →
          bsIter probeW whi wlo (j + 1)
            = ⟨probeW (midOf (bsIter probeW whi wlo j)),
               some (midOf (bsIter probeW whi wlo j)),
               midOf (bsIter probeW whi wlo j), (bsIter probeW whi wlo j).lo⟩)
      ∧ (∀ i, i < K → probeW (midOf (bsIter probeW whi wlo i)) ≠ [] →
          (∀ i2, i < i2 → i2 < K → probeW (midOf (bsIter probeW whi wlo i2)) = []) →
          binary_search_slr_crossing_limit probeW wlo whi
            = (probeW (midOf (bsIter probeW whi wlo i)),
               some (midOf (bsIter probeW whi wlo i)))))
    ∧ (∃ K, 1 ≤ K
      ∧ ((bsIter probeA ahi alo K).hi - (bsIter probeA ahi alo K).lo < 1/100)
      ∧ (∀ j, 1 ≤ j → j < K →
          ¬ ((bsIter probeA ahi alo j).hi - (bsIter probeA ahi alo j).lo < 1/100))
      ∧ binary_search_area_limit probeA alo ahi
          = ((bsIter probeA ahi alo K).best, (bsIter probeA ahi alo K).found)
      ∧ (∀ j, probeA (midOf (bsIter probeA ahi alo j)) = [] →
          bsIter probeA ahi alo (j + 1)
            = ⟨(bsIter probeA ahi alo j).best, (bsIter probeA ahi alo j).found,
               (bsIter probeA ahi alo j).hi, midOf (bsIter probeA ahi alo j)⟩)
      ∧ (∀ j, probeA (midOf (bsIter probeA ahi alo j)) ≠ [] →
          bsIter probeA ahi alo (j + 1)
            = ⟨probeA (midOf (bsIter probeA ahi alo j)),
               some (midOf (bsIter probeA ahi alo j)),
               midOf (bsIter probeA ahi alo j), (bsIter probeA ahi alo j).lo⟩)
      ∧ (∀ i, i < K → probeA (midOf (bsIter probeA ahi alo i)) ≠ [] →
          (∀ i2, i < i2 → i2 < K → probeA (midOf (bsIter probeA ahi alo i2)) = []) →
          binary_search_area_limit probeA alo ahi
            = (probeA (midOf (bsIter probeA ahi alo i)),
               some (midOf (bsIter probeA ahi alo i))))) :=
  ⟨bsearch_full_char probeW 500 (by norm_num) whi wlo,
   bsearch_full_char probeA (1/100) (by norm_num) ahi alo⟩

/-- Claim C10: each binary-search routine invokes the partitioner at least
once, probing the midpoint of the initial interval even when that interval
already satisfies the stopping threshold; and when every probe fails, each
routine returns the empty mapping paired with None as the found cap. -/
theorem claim_C10 {α : Type} :
    (∀ (probe : ℚ → List α) (lo hi : ℚ),
        (crossing_search_probes probe lo hi).head? = some ((hi + lo) / 2))
    ∧ (∀ (probe : ℚ → List α) (lo hi : ℚ),
        (area_search_probes probe lo hi).head? = some ((hi + lo) / 2))
    ∧ (∀ (probe : ℚ → List α) (lo hi : ℚ), (∀ c, probe c = []) →
        binary_search_slr_crossing_limit probe lo hi = ([], none))
    ∧ (∀ (probe : ℚ → List α) (lo hi : ℚ), (∀ c, probe c = []) →
        binary_search_area_limit probe lo hi = ([], none)) := by
  refine ⟨fun probe lo hi => rfl, fun probe lo hi => rfl, ?_, ?_⟩
  · intro probe lo hi hall
    exact bsearchGo_allfail probe 500 hall _ _
  · intro probe lo hi hall
    exact bsearchGo_allfail probe (1/100) hall _ _

/-- Claim C5: under AREA_PRIORITIZED, if the area-cap binary search run
with the max crossing limit finds no mapping then the worker returns the
empty map; otherwise the crossing-cap binary search runs at the area cap
found by the first search, and the worker returns the crossing search
best mapping, or the area search mapping when the crossing search finds
none. -/
theorem claim_C5 {α : Type} (partitioner : ℚ → ℚ → List α)
    (min_a max_a min_w max_w : ℚ) :
    ((binary_search_area_limit (fun a => partitioner a max_w) min_a max_a).1 = [] →
        partition_area_prioritized partitioner min_a max_a min_w max_w = [])
    ∧ ((binary_search_area_limit (fun a => partitioner a max_w) min_a max_a).1 ≠ [] →
        ∃ a, (binary_search_area_limit (fun a => partitioner a max_w) min_a max_a).2
              = some a
          ∧ partition_area_prioritized partitioner min_a max_a min_w max_w
            = (if (binary_search_slr_crossing_limit (fun w => partitioner a w)
                    min_w max_w).1.isEmpty
               then (binary_search_area_limit (fun a => partitioner a max_w)
                      min_a max_a).1
               else (binary_search_slr_crossing_limit (fun w => partitioner a w)
                      min_w max_w).1)) := by
  constructor
  · intro h
    unfold partition_area_prioritized
    rw [if_pos (List.isEmpty_iff.mpr h)]
  · intro h
    have hiff := bsearchGo_none_iff (fun a => partitioner a max_w) (1/100)
      (bsFuel (max_a - min_a) (1/100)) (bsInit max_a min_a) (by simp [bsInit])
    have hfound : (binary_search_area_limit (fun a => partitioner a max_w)
        min_a max_a).2 ≠ none := fun hn => h (hiff.mpr hn)
    obtain ⟨a, ha⟩ := Option.ne_none_iff_exists'.mp hfound
    refine ⟨a, ha, ?_⟩
    unfold partition_area_prioritized
    rw [if_neg (by simpa [List.isEmpty_iff] using h)]
    rw [ha]
    rfl

theorem fourWayGo_succ {α : Type} (inner : ℚ → List α) (fuel : ℕ) (area : ℚ) :
    fourWayGo inner (fuel + 1) area
      = if (inner area).isEmpty
        then (if 2 ≤ round2 (area + 1/50) then []
              else fourWayGo inner fuel (round2 (area + 1/50)))
        else inner area := rfl

theorem abs_round2_sub (q : ℚ) : |round2 q - q| ≤ 1/200 := by
  have h := abs_sub_round (q * 100)
  have heq : round2 q - q = (((round (q * 100) : ℤ) : ℚ) - q * 100) / 100 := by
    unfold round2
    ring
  rw [heq, abs_div]
  have h100 : |(100 : ℚ)| = 100 := by norm_num
  rw [h100, div_le_iff₀ (by norm_num : (0 : ℚ) < 100)]
  calc |((round (q * 100) : ℤ) : ℚ) - q * 100|
      = |q * 100 - ((round (q * 100) : ℤ) : ℚ)| := abs_sub_comm _ _
    _ ≤ 1/2 := h
    _ ≤ 1/200 * 100 := by norm_num

theorem round2_step_lower (a : ℚ) : a + 3/200 ≤ round2 (a + 1/50) := by
  have h := (abs_le.mp (abs_round2_sub (a + 1/50))).1
  linarith

theorem fourWayFuel_pos (a : ℚ) : 1 ≤ fourWayFuel a := by
  unfold fourWayFuel
  omega

theorem fourWayFuel_decrease {a : ℚ} (h2 : round2 (a + 1/50) < 2) :
    fourWayFuel (round2 (a + 1/50)) < fourWayFuel a := by
  have hlb := round2_step_lower a
  set b := round2 (a + 1/50) with hb
  have hA : (1 : ℤ) ≤ Int.ceil ((2 - b) * 200) := by
    have hpos : (0 : ℚ) < (2 - b) * 200 := by nlinarith
    exact Int.ceil_pos.mpr hpos
  have hAB : Int.ceil ((2 - b) * 200) + 3 ≤ Int.ceil ((2 - a) * 200) := by
    have hmono := Int.ceil_mono
      (show (2 - b) * 200 ≤ (2 - a) * 200 - ((3 : ℤ) : ℚ) by push_cast; nlinarith)
    rw [Int.ceil_sub_int] at hmono
    omega
  unfold fourWayFuel
  omega

theorem capSeqF_shift (a : ℚ) : ∀ n, capSeqF a (n + 1) = capSeqF (round2 (a + 1/50)) n
  | 0 => rfl
  | n + 1 => by
    show round2 (capSeqF a (n + 1) + 1/50) = round2 (capSeqF (round2 (a + 1/50)) n + 1/50)
    rw [capSeqF_shift a n]

theorem fourWayGo_char {α : Type} (inner : ℚ → List α) :
    ∀ (fuel : ℕ) (area : ℚ), fourWayFuel area ≤ fuel →
      ∃ n, (∀ m, m < n → inner (capSeqF area m) = [] ∧ capSeqF area (m + 1) < 2)
        ∧ ((inner (capSeqF area n) ≠ []
              ∧ fourWayGo inner fuel area = inner (capSeqF area n))
           ∨ (inner (capSeqF area n) = [] ∧ 2 ≤ capSeqF area (n + 1)
              ∧ fourWayGo inner fuel area = []))
  | 0, area, hf => by
    have := fourWayFuel_pos area
    omega
  | fuel + 1, area, hf => by
    by_cases hv : inner area = []
    · by_cases hlim : 2 ≤ round2 (area + 1/50)
      · refine ⟨0, fun m hm => absurd hm (Nat.not_lt_zero m), Or.inr ⟨hv, hlim, ?_⟩⟩
        rw [fourWayGo_succ, if_pos (List.isEmpty_iff.mpr hv), if_pos hlim]
      · have hfa : fourWayFuel (round2 (area + 1/50)) ≤ fuel := by
          have := fourWayFuel_decrease (not_le.mp hlim)
          omega
        obtain ⟨n, hpre, hres⟩ := fourWayGo_char inner fuel (round2 (area + 1/50)) hfa
        have hgo : fourWayGo inner (fuel + 1) area
            = fourWayGo inner fuel (round2 (area + 1/50)) := by
          rw [fourWayGo_succ, if_pos (List.isEmpty_iff.mpr hv), if_neg hlim]
        refine ⟨n + 1, ?_, ?_⟩
        · intro m hm
          cases m with
          | zero => exact ⟨hv, not_le.mp hlim⟩
          | succ k =>
            have h := hpre k (by omega)
            rw [capSeqF_shift area k, capSeqF_shift area (k + 1)]
            exact h
        · rw [hgo, capSeqF_shift area n, capSeqF_shift area (n + 1)]
          exact hres
    · refine ⟨0, fun m hm => absurd hm (Nat.not_lt_zero m), Or.inl ⟨hv, ?_⟩⟩
      rw [fourWayGo_succ, if_neg (by simpa [List.isEmpty_iff] using hv)]
      rfl

/-- Claim C3: whenever every inner solve terminates (the inner solver here
is a total function), four_way_partition terminates: starting from the
reference usage value it repeatedly calls the private solver, after each
empty result raising the cap by 0.02 rounded to two decimals, returns the
first non-empty mapping obtained, and returns the empty mapping as soon as
the incremented cap reaches or exceeds the hard limit 2. -/
theorem claim_C3 {α : Type} (inner : ℚ → ℚ → ℚ → ℚ → List α) (ref_usage : ℚ) :
    ∃ n, capSeqF ref_usage 0 = ref_usage
      ∧ (∀ m, m < n → inner (capSeqF ref_usage m) 12000 12000 12000 = []
            ∧ capSeqF ref_usage (m + 1) < 2)
      ∧ ((inner (capSeqF ref_usage n) 12000 12000 12000 ≠ []
            ∧ four_way_partition inner ref_usage
              = inner (capSeqF ref_usage n) 12000 12000 12000)
         ∨ (inner (capSeqF ref_usage n) 12000 12000 12000 = []
            ∧ 2 ≤ capSeqF ref_usage (n + 1)
            ∧ four_way_partition inner ref_usage = [])) := by
  obtain ⟨n, h1, h2⟩ := fourWayGo_char (fun a => inner a 12000 12000 12000)
    (fourWayFuel ref_usage) ref_usage le_rfl
  exact ⟨n, rfl, h1, h2⟩

theorem fourWayGo_congr {α : Type} (f g : ℚ → List α) (h : ∀ a, f a = g a) :
    ∀ (fuel : ℕ) (area : ℚ), fourWayGo f fuel area = fourWayGo g fuel area
  | 0, _ => rfl
  | fuel + 1, area => by
    rw [fourWayGo_succ, fourWayGo_succ, h area,
        fourWayGo_congr f g h fuel (round2 (area + 1/50))]

/-- Claim C1 (the code contradicts it): the FOUR_WAY_PARTITION probe of the
crossing-cap binary search passes its seven arguments positionally in the
order (init_v2s, grouping_constraints, pre_assignments, slot_manager,
area_limit, curr_slr_limit, max_search_time), while four_way_partition
declares (init_v2s, slot_manager, grouping_constraints, pre_assignments,
ref_usage_ratio, max_search_time, max_usage_ratio_delta,
hard_limit_max_usage). The first conjunct computes the resulting positional
binding: grouping binds to the slot-manager parameter, the pre-assignments
to the grouping parameter, the slot manager to the pre-assignment
parameter, the probed crossing cap to the solver time limit, and the time
budget to the cap increment - none of the like-named bindings claimed. The
second conjunct shows the three boundary width limits of the private solver
are fixed at their default 12000 on this path: two solvers agreeing at
width limits 12000 are indistinguishable, so the probed crossing cap never
reaches any boundary constraint. -/
theorem claim_C1 {α : Type} :
    crossing_probe_binding
      = [("init_v2s", "init_v2s"),
         ("slot_manager", "grouping_constraints"),
         ("grouping_constraints", "pre_assignments"),
         ("pre_assignments", "slot_manager"),
         ("ref_usage_ratio", "area_limit"),
         ("max_search_time", "curr_slr_limit"),
         ("max_usage_ratio_delta", "max_search_time")]
    ∧ (∀ (inner inner2 : ℚ → ℚ → ℚ → ℚ → List α) (ref_usage : ℚ),
        (∀ a, inner a 12000 12000 12000 = inner2 a 12000 12000 12000) →
        four_way_partition inner ref_usage = four_way_partition inner2 ref_usage) :=
  ⟨rfl, fun _ _ _ h => fourWayGo_congr _ _ h _ _⟩

theorem get_results_keys {V S : Type} (status : OptimizationStatus)
    (val_y1 val_y2 : V → ℕ) (v_list : List V) (f : ℕ → ℕ → S) :
    (get_results status val_y1 val_y2 v_list f).map Prod.fst
      = if status = OptimizationStatus.OPTIMAL ∨ status = OptimizationStatus.FEASIBLE
        then v_list else [] := by
  cases status <;> simp [get_results, Function.comp_def]

theorem get_results_empty {V S : Type} (status : OptimizationStatus)
    (val_y1 val_y2 : V → ℕ) (v_list : List V) (f : ℕ → ℕ → S)
    (h1 : status ≠ OptimizationStatus.OPTIMAL)
    (h2 : status ≠ OptimizationStatus.FEASIBLE) :
    get_results status val_y1 val_y2 v_list f = [] := by
  cases status <;> simp_all [get_results]

theorem get_results_mem {V S : Type} {status : OptimizationStatus}
    {val_y1 val_y2 : V → ℕ} {v_list : List V} {f : ℕ → ℕ → S} {p : V × S}
    (hp : p ∈ get_results status val_y1 val_y2 v_list f) :
    ∃ v ∈ v_list, p = (v, f (val_y1 v) (val_y2 v)) := by
  have hopt : ∀ (hp2 : p ∈ v_list.map (fun v => (v, f (val_y1 v) (val_y2 v)))),
      ∃ v ∈ v_list, p = (v, f (val_y1 v) (val_y2 v)) := by
    intro hp2
    obtain ⟨v, hv, hveq⟩ := List.mem_map.mp hp2
    exact ⟨v, hv, hveq.symm⟩
  cases status <;> first
    | exact hopt hp
    | exact absurd hp (List.not_mem_nil p)

/-- Claim C6: a four-way ILP solve yields a complete vertex-to-slot mapping
(its key list is exactly v_list) exactly when the solver status is OPTIMAL
or FEASIBLE; for every other status (infeasible, no solution found, error,
and the rest of the enumeration) the result is the empty mapping. The
extraction is a total function of the status, so no optimization outcome
raises. -/
theorem claim_C6 {V S : Type} (status : OptimizationStatus) (val_y1 val_y2 : V → ℕ)
    (v_list : List V) (all_leaf_slots : List S) (dflt : S) :
    ((get_results status val_y1 val_y2 v_list
        (get_slot_by_idx_closure all_leaf_slots dflt)).map Prod.fst
      = if status = OptimizationStatus.OPTIMAL ∨ status = OptimizationStatus.FEASIBLE
        then v_list else [])
    ∧ (status ≠ OptimizationStatus.OPTIMAL → status ≠ OptimizationStatus.FEASIBLE →
        get_results status val_y1 val_y2 v_list
          (get_slot_by_idx_closure all_leaf_slots dflt) = []) :=
  ⟨get_results_keys _ _ _ _ _, fun h1 h2 => get_results_empty _ _ _ _ _ h1 h2⟩

theorem get_slot_by_idx_mem {S : Type} (slots : List S) (dflt : S) (y1 y2 : ℕ)
    (hlen : slots.length = 4) (h1 : y1 ≤ 1) (h2 : y2 ≤ 1) :
    get_slot_by_idx_closure slots dflt y1 y2 ∈ slots := by
  rcases slots with _ | ⟨a, _ | ⟨b, _ | ⟨c, _ | ⟨e, rest⟩⟩⟩⟩ <;>
    simp only [List.length_nil, List.length_cons] at hlen <;> try omega
  have hrest : rest = [] := by
    have : rest.length = 0 := by omega
    exact List.length_eq_zero.mp this
  subst hrest
  interval_cases y1 <;> interval_cases y2 <;>
    simp [get_slot_by_idx_closure, List.getD]

/-- Claim C7: for every call to the private four-way solve, the returned
mapping is either empty or has as its key list exactly the vertices of
init_v2s, each vertex mapped to one of the four leaf slots of the current
two-split partition (the binary coordinate variables take values 0 or 1,
and the leaf list of the two-horizontal-split partition has four slots). -/
theorem claim_C7 {V S : Type} (init_v2s : List (V × S)) (all_leaf_slots : List S)
    (dflt : S) (solver : OptimizationStatus × ((V → ℕ) × (V → ℕ)))
    (hlen : all_leaf_slots.length = 4)
    (hbin : ∀ v, solver.2.1 v ≤ 1 ∧ solver.2.2 v ≤ 1) :
    four_way_partition_body init_v2s all_leaf_slots dflt solver = []
    ∨ ((four_way_partition_body init_v2s all_leaf_slots dflt solver).map Prod.fst
        = init_v2s.map Prod.fst
       ∧ ∀ p ∈ four_way_partition_body init_v2s all_leaf_slots dflt solver,
           p.2 ∈ all_leaf_slots) := by
  by_cases hst : solver.1 = OptimizationStatus.OPTIMAL
      ∨ solver.1 = OptimizationStatus.FEASIBLE
  · right
    constructor
    · simp only [four_way_partition_body]
      rw [get_results_keys, if_pos hst]
    · intro p hp
      simp only [four_way_partition_body] at hp
      obtain ⟨v, hv, rfl⟩ := get_results_mem hp
      exact get_slot_by_idx_mem all_leaf_slots dflt _ _ hlen (hbin v).1 (hbin v).2
  · left
    push_neg at hst
    simp only [four_way_partition_body]
    exact get_results_empty _ _ _ _ _ hst.1 hst.2

theorem claim_C7_witness :
    four_way_partition_body [((0 : ℕ), (5 : ℕ))] [10, 11, 12, 13] 0
        (OptimizationStatus.OPTIMAL, (fun _ => 1, fun _ => 0)) = []
    ∨ ((four_way_partition_body [((0 : ℕ), (5 : ℕ))] [10, 11, 12, 13] 0
          (OptimizationStatus.OPTIMAL, (fun _ => 1, fun _ => 0))).map Prod.fst
        = [((0 : ℕ), (5 : ℕ))].map Prod.fst
       ∧ ∀ p ∈ four_way_partition_body [((0 : ℕ), (5 : ℕ))] [10, 11, 12, 13] 0
            (OptimizationStatus.OPTIMAL, (fun _ => 1, fun _ => 0)),
           p.2 ∈ [10, 11, 12, 13]) :=
  claim_C7 [((0 : ℕ), (5 : ℕ))] [10, 11, 12, 13] 0
    (OptimizationStatus.OPTIMAL, (fun _ => 1, fun _ => 0)) rfl
    (fun _ => ⟨Nat.le_refl 1, Nat.zero_le 1⟩)

/-- Claim C2 counterexample: a concrete pre-assignment pass in which the
expected slot of the pre-assigned vertex is contained in no current leaf
slot (the containment test is everywhere false). The claim says the call
fails with a configuration-error diagnostic; instead the source slot loop
simply matches no leaf, the pass succeeds and adds no constraint at all. -/
theorem claim_C2_counterexample :
    add_pre_assignment [0] (get_slot_to_idx (fun y1 y2 => 2 * y1 + y2))
      (fun _ _ => false) [((0 : ℕ), (9 : ℕ))]
      = Except.ok [] := rfl

theorem pre_assign_one_vertex {V S : Type} {containsChildSlot : S → S → Bool}
    {sti : List (S × (ℕ × ℕ))} {v : V} {es : S} {c : CoordConstr V}
    (hc : c ∈ pre_assign_one containsChildSlot sti v es) :
    coord_constr_vertex c = v := by
  simp only [pre_assign_one, List.mem_flatMap] at hc
  obtain ⟨q, hq, hcq⟩ := hc
  by_cases h : containsChildSlot q.1 es
  · rw [if_pos h] at hcq
    simp only [List.mem_cons, List.not_mem_nil, or_false] at hcq
    rcases hcq with rfl | rfl <;> rfl
  · rw [if_neg h] at hcq
    exact absurd hcq (List.not_mem_nil c)

theorem pre_assign_one_empty {V S : Type} (containsChildSlot : S → S → Bool)
    (v : V) (es : S) :
    ∀ (sti : List (S × (ℕ × ℕ))), (∀ q ∈ sti, containsChildSlot q.1 es = false) →
      pre_assign_one containsChildSlot sti v es = []
  | [], _ => rfl
  | q :: rest, h => by
    have hq := h q (List.mem_cons_self q rest)
    have ih := pre_assign_one_empty containsChildSlot v es rest
      (fun r hr => h r (List.mem_cons_of_mem _ hr))
    unfold pre_assign_one at ih ⊢
    rw [List.flatMap_cons]
    simp [hq, ih]

theorem add_pre_assignment_ok {V S : Type} [DecidableEq V] (v_list : List V)
    (sti : List (S × (ℕ × ℕ))) (containsChildSlot : S → S → Bool) :
    ∀ (pre : List (V × S)), (∀ p ∈ pre, p.1 ∈ v_list) →
      ∃ cs, add_pre_assignment v_list sti containsChildSlot pre = Except.ok cs
        ∧ ∀ c ∈ cs, ∃ p ∈ pre, coord_constr_vertex c = p.1
            ∧ c ∈ pre_assign_one containsChildSlot sti p.1 p.2
  | [], _ => ⟨[], rfl, by simp⟩
  | (w, es) :: rest, hall => by
    obtain ⟨cs, hok, hsrc⟩ := add_pre_assignment_ok v_list sti containsChildSlot rest
      (fun p hp => hall p (List.mem_cons_of_mem _ hp))
    have hw : w ∈ v_list := hall (w, es) (List.mem_cons_self _ _)
    refine ⟨pre_assign_one containsChildSlot sti w es ++ cs, ?_, ?_⟩
    · simp only [add_pre_assignment]
      rw [if_pos hw, hok]
    · intro c hc
      rcases List.mem_append.mp hc with h | h
      · exact ⟨(w, es), List.mem_cons_self _ _, pre_assign_one_vertex h, h⟩
      · obtain ⟨p, hp, hv1, hv2⟩ := hsrc c h
        exact ⟨p, List.mem_cons_of_mem _ hp, hv1, hv2⟩

/-- Claim C2 amended: for every pre-assignment pass whose pre-assigned
vertices all occur in the vertex list, the pass succeeds; and for a
pre-assigned vertex v whose expected slot is contained in no current leaf
slot, no coordinate constraint whatsoever is added for v - the vertex is
left unconstrained. A configuration-error diagnostic arises only for a
pre-assigned vertex absent from the vertex list. -/
theorem claim_C2_amended {V S : Type} [DecidableEq V] (v_list : List V)
    (slot_to_idx : List (S × (ℕ × ℕ))) (containsChildSlot : S → S → Bool)
    (pre : List (V × S)) (v : V) (expect_slot : S)
    (hall : ∀ p ∈ pre, p.1 ∈ v_list)
    (hnone : ∀ q ∈ slot_to_idx, containsChildSlot q.1 expect_slot = false)
    (huniq : ∀ s2, (v, s2) ∈ pre → s2 = expect_slot) :
    ∃ cs, add_pre_assignment v_list slot_to_idx containsChildSlot pre = Except.ok cs
      ∧ ∀ c ∈ cs, coord_constr_vertex c ≠ v := by
  obtain ⟨cs, hok, hsrc⟩ :=
    add_pre_assignment_ok v_list slot_to_idx containsChildSlot pre hall
  refine ⟨cs, hok, ?_⟩
  intro c hc hveq
  obtain ⟨p, hp, hpv, hcp⟩ := hsrc c hc
  have hp1 : p.1 = v := by rw [← hpv]; exact hveq
  have hvp : (v, p.2) ∈ pre := by
    have hmk : (p.1, p.2) ∈ pre := by rw [Prod.mk.eta]; exact hp
    rwa [hp1] at hmk
  have hs2 : p.2 = expect_slot := huniq p.2 hvp
  rw [hp1, hs2] at hcp
  rw [pre_assign_one_empty containsChildSlot v expect_slot slot_to_idx hnone] at hcp
  exact absurd hcp (List.not_mem_nil c)

theorem claim_C2_amended_witness :
    ∃ cs, add_pre_assignment [0, 1] (get_slot_to_idx (fun y1 y2 => 2 * y1 + y2))
        (fun s es => decide (s = es)) [((0 : ℕ), (9 : ℕ)), (1, 2)] = Except.ok cs
      ∧ ∀ c ∈ cs, coord_constr_vertex c ≠ 0 :=
  claim_C2_amended [0, 1] (get_slot_to_idx (fun y1 y2 => 2 * y1 + y2))
    (fun s es => decide (s = es)) [((0 : ℕ), (9 : ℕ)), (1, 2)] 0 9
    (by decide) (by decide)
    (by
      intro s2 hs2
      simp only [List.mem_cons, List.not_mem_nil, or_false, Prod.mk.injEq] at hs2
      omega)

theorem mem_area_constraints_triple {V R : Type} {res : List R} {vl : List V}
    {r : R} {p : ℕ × ℕ} {v : V} (hr : r ∈ res) (hp : p ∈ prod01) (hv : v ∈ vl) :
    AreaConstr.pick_le_fst r p.1 p.2 v ∈ add_area_constraints res vl
    ∧ AreaConstr.pick_le_snd r p.1 p.2 v ∈ add_area_constraints res vl
    ∧ AreaConstr.and_lower r p.1 p.2 v ∈ add_area_constraints res vl := by
  unfold add_area_constraints
  refine ⟨?_, ?_, ?_⟩ <;>
  · rw [List.mem_flatMap]
    refine ⟨r, hr, ?_⟩
    rw [List.mem_flatMap]
    refine ⟨p, hp, ?_⟩
    rw [List.mem_append]
    left
    rw [List.mem_flatMap]
    exact ⟨v, hv, by simp⟩

theorem mem_area_constraints_cap {V R : Type} {res : List R} {vl : List V}
    {r : R} {p : ℕ × ℕ} (hr : r ∈ res) (hp : p ∈ prod01) :
    AreaConstr.cap_bound r p.1 p.2 ∈ add_area_constraints (V := V) res vl := by
  unfold add_area_constraints
  rw [List.mem_flatMap]
  refine ⟨r, hr, ?_⟩
  rw [List.mem_flatMap]
  refine ⟨p, hp, ?_⟩
  rw [List.mem_append]
  right
  simp

theorem and_forcing {a b pk : ℚ} (ha : a = 0 ∨ a = 1) (hb : b = 0 ∨ b = 1)
    (hpk : pk = 0 ∨ pk = 1) (c1 : pk ≤ a) (c2 : pk ≤ b) (c3 : a + b - pk ≤ 1) :
    (pk = 1 ↔ (a = 1 ∧ b = 1)) := by
  rcases ha with rfl | rfl <;> rcases hb with rfl | rfl <;>
    rcases hpk with rfl | rfl <;> norm_num at c1 c2 c3 ⊢

theorem choose_binary {x : ℚ} (k : ℕ) (hx : x = 0 ∨ x = 1) :
    choose x k = 0 ∨ choose x k = 1 := by
  unfold choose
  split <;> rcases hx with rfl | rfl <;> norm_num

theorem choose_eq_one_iff {x : ℚ} (k : ℕ) (hx : x = 0 ∨ x = 1) (hk : k ≤ 1) :
    (choose x k = 1 ↔ x = (k : ℚ)) := by
  interval_cases k <;> rcases hx with rfl | rfl <;> norm_num [choose]

theorem pick_forcing {x y pk : ℚ} {k1 k2 : ℕ} (hx : x = 0 ∨ x = 1)
    (hy : y = 0 ∨ y = 1) (hpk : pk = 0 ∨ pk = 1) (hk1 : k1 ≤ 1) (hk2 : k2 ≤ 1)
    (c1 : pk ≤ choose x k1) (c2 : pk ≤ choose y k2)
    (c3 : choose x k1 + choose y k2 - pk ≤ 1) :
    (pk = 1 ↔ (x = (k1 : ℚ) ∧ y = (k2 : ℚ))) := by
  have h := and_forcing (choose_binary k1 hx) (choose_binary k2 hy) hpk c1 c2 c3
  rw [choose_eq_one_iff k1 hx hk1, choose_eq_one_iff k2 hy hk2] at h
  exact h

/-- Claim C8: for each resource r and each leaf index pair in the generated
area constraint system, every feasible 0/1 assignment forces the per-vertex
pick variable to equal 1 exactly when the two coordinate variables of that
vertex equal the pair (through the three-inequality AND encoding), and
satisfies the bound of the sum of pick times bundled area by the leaf
capacity times the usage cap. -/
theorem claim_C8 {V R : Type} (resource_types : List R) (v_list : List V)
    (ay1 ay2 : V → ℚ) (pick : R → ℕ → ℕ → V → ℚ) (bundled : V → R → ℚ)
    (slot_area : ℕ → ℕ → R → ℚ) (max_usage : ℚ)
    (h1 : ∀ v, ay1 v = 0 ∨ ay1 v = 1) (h2 : ∀ v, ay2 v = 0 ∨ ay2 v = 1)
    (hpick : ∀ r y1 y2 v, pick r y1 y2 v = 0 ∨ pick r y1 y2 v = 1)
    (hsat : ∀ c ∈ add_area_constraints resource_types v_list,
        area_constr_holds ay1 ay2 pick bundled slot_area max_usage v_list c) :
    ∀ r ∈ resource_types, ∀ p ∈ prod01,
      (∀ v ∈ v_list,
        (pick r p.1 p.2 v = 1 ↔ (ay1 v = (p.1 : ℚ) ∧ ay2 v = (p.2 : ℚ))))
      ∧ (v_list.map (fun v => pick r p.1 p.2 v * bundled v r)).sum
          ≤ slot_area p.1 p.2 r * max_usage := by
  intro r hr p hp
  have hk : p.1 ≤ 1 ∧ p.2 ≤ 1 := by fin_cases hp <;> exact ⟨by decide, by decide⟩
  refine ⟨?_, ?_⟩
  · intro v hv
    obtain ⟨m1, m2, m3⟩ := mem_area_constraints_triple hr hp hv
    have c1 : pick r p.1 p.2 v ≤ choose (ay1 v) p.1 := hsat _ m1
    have c2 : pick r p.1 p.2 v ≤ choose (ay2 v) p.2 := hsat _ m2
    have c3 : choose (ay1 v) p.1 + choose (ay2 v) p.2 - pick r p.1 p.2 v ≤ 1 :=
      hsat _ m3
    exact pick_forcing (h1 v) (h2 v) (hpick r p.1 p.2 v) hk.1 hk.2 c1 c2 c3
  · exact hsat _ (mem_area_constraints_cap hr hp)

theorem claim_C8_witness :
    (w8pick Resource.LUT 0 0 0 = 1
      ↔ (w8zero 0 = ((0 : ℕ) : ℚ) ∧ w8zero 0 = ((0 : ℕ) : ℚ)))
    ∧ ([(0 : ℕ)].map (fun v => w8pick Resource.LUT 0 0 v * w8bund v Resource.LUT)).sum
        ≤ w8area 0 0 Resource.LUT * 1 := by
  have h := claim_C8 RESOURCE_TYPES [(0 : ℕ)] w8zero w8zero w8pick w8bund w8area 1
    (fun _ => Or.inl rfl) (fun _ => Or.inl rfl)
    (fun r y1 y2 v => by
      unfold w8pick
      by_cases hc : y1 = 0 ∧ y2 = 0 <;> simp [hc])
    (by
      intro c hc
      fin_cases hc <;>
        norm_num [area_constr_holds, choose, w8pick, w8zero, w8bund, w8area])
    Resource.LUT (by decide) ((0 : ℕ), (0 : ℕ)) (by decide)
  exact ⟨h.1 0 (by decide), h.2⟩

theorem initEdges_port_mono {etv : String → Option String} {store : GraphPy.VStore}
    {e : GraphPy.EdgeR} {prt : String × String} {r : GraphPy.VStore × GraphPy.EdgeR}
    (h : GraphPy.initEdges_port etv store e prt = Except.ok r) (n x : String) :
    (x ∈ (store n).out_edges → x ∈ (r.1 n).out_edges)
    ∧ (x ∈ (store n).in_edges → x ∈ (r.1 n).in_edges) := by
  simp only [GraphPy.initEdges_port] at h
  split at h
  · cases hv : etv prt.2 with
    | none => rw [hv] at h; exact absurd h (by simp)
    | some vn =>
      rw [hv] at h
      cases h
      constructor
      · intro hx
        show x ∈ (if n = vn then GraphPy.add_in (store n) e.name else store n).out_edges
        by_cases hn : n = vn
        · rw [if_pos hn]
          exact List.mem_append_left _ hx
        · rw [if_neg hn]
          exact hx
      · intro hx
        show x ∈ (if n = vn then GraphPy.add_in (store n) e.name else store n).in_edges
        by_cases hn : n = vn
        · rw [if_pos hn]
          exact hx
        · rw [if_neg hn]
          exact hx
  · split at h
    · cases hv : etv prt.2 with
      | none => rw [hv] at h; exact absurd h (by simp)
      | some vn =>
        rw [hv] at h
        cases h
        constructor
        · intro hx
          show x ∈ (if n = vn then GraphPy.add_out (store n) e.name else store n).out_edges
          by_cases hn : n = vn
          · rw [if_pos hn]
            exact hx
          · rw [if_neg hn]
            exact hx
        · intro hx
          show x ∈ (if n = vn then GraphPy.add_out (store n) e.name else store n).in_edges
          by_cases hn : n = vn
          · rw [if_pos hn]
            exact List.mem_append_left _ hx
          · rw [if_neg hn]
            exact hx
    · cases h
      exact ⟨id, id⟩

theorem initEdges_port_name {etv : String → Option String} {store : GraphPy.VStore}
    {e : GraphPy.EdgeR} {prt : String × String} {r : GraphPy.VStore × GraphPy.EdgeR}
    (h : GraphPy.initEdges_port etv store e prt = Except.ok r) :
    r.2.name = e.name := by
  simp only [GraphPy.initEdges_port] at h
  split at h
  · cases hv : etv prt.2 with
    | none => rw [hv] at h; exact absurd h (by simp)
    | some vn => rw [hv] at h; cases h; rfl
  · split at h
    · cases hv : etv prt.2 with
      | none => rw [hv] at h; exact absurd h (by simp)
      | some vn => rw [hv] at h; cases h; rfl
    · cases h; rfl

theorem initEdges_port_dout {etv : String → Option String} {store : GraphPy.VStore}
    {e : GraphPy.EdgeR} {prt : String × String} {r : GraphPy.VStore × GraphPy.EdgeR}
    {D : String}
    (hdout : (GraphPy.pyIn "_dout" prt.2 && GraphPy.pyIn "_dout" prt.1) = true)
    (hD : etv prt.2 = some D)
    (h : GraphPy.initEdges_port etv store e prt = Except.ok r) :
    e.name ∈ (r.1 D).out_edges := by
  simp only [GraphPy.initEdges_port] at h
  rw [if_pos hdout, hD] at h
  cases h
  show e.name ∈ (if D = D then GraphPy.add_in (store D) e.name else store D).out_edges
  rw [if_pos rfl]
  exact List.mem_append_right _ (List.mem_singleton.mpr rfl)

theorem initEdges_port_din {etv : String → Option String} {store : GraphPy.VStore}
    {e : GraphPy.EdgeR} {prt : String × String} {r : GraphPy.VStore × GraphPy.EdgeR}
    {S : String}
    (hnd : (GraphPy.pyIn "_dout" prt.2 && GraphPy.pyIn "_dout" prt.1) = false)
    (hdin : (GraphPy.pyIn "_din" prt.2 && GraphPy.pyIn "_din" prt.1) = true)
    (hS : etv prt.2 = some S)
    (h : GraphPy.initEdges_port etv store e prt = Except.ok r) :
    e.name ∈ (r.1 S).in_edges := by
  simp only [GraphPy.initEdges_port] at h
  rw [if_neg (by simp [hnd]), if_pos hdin, hS] at h
  cases h
  show e.name ∈ (if S = S then GraphPy.add_out (store S) e.name else store S).in_edges
  rw [if_pos rfl]
  exact List.mem_append_right _ (List.mem_singleton.mpr rfl)

theorem initEdges_ports_mono {etv : String → Option String} :
    ∀ (ports : List (String × String)) (store : GraphPy.VStore) (e : GraphPy.EdgeR)
      (r : GraphPy.VStore × GraphPy.EdgeR),
      GraphPy.initEdges_ports etv ports store e = Except.ok r →
      ∀ n x, (x ∈ (store n).out_edges → x ∈ (r.1 n).out_edges)
        ∧ (x ∈ (store n).in_edges → x ∈ (r.1 n).in_edges)
  | [], store, e, r, h, n, x => by
    cases h
    exact ⟨id, id⟩
  | p :: rest, store, e, r, h, n, x => by
    simp only [GraphPy.initEdges_ports] at h
    cases hstep : GraphPy.initEdges_port etv store e p with
    | error msg => rw [hstep] at h; exact absurd h (by simp)
    | ok r2 =>
      rw [hstep] at h
      have h1 := initEdges_port_mono hstep n x
      have h2 := initEdges_ports_mono rest r2.1 r2.2 r h n x
      exact ⟨fun hx => h2.1 (h1.1 hx), fun hx => h2.2 (h1.2 hx)⟩

theorem initEdges_ports_dout {etv : String → Option String} (D : String) :
    ∀ (ports : List (String × String)) (store : GraphPy.VStore) (e : GraphPy.EdgeR)
      (r : GraphPy.VStore × GraphPy.EdgeR),
      GraphPy.initEdges_ports etv ports store e = Except.ok r →
      ∀ p ∈ ports, (GraphPy.pyIn "_dout" p.2 && GraphPy.pyIn "_dout" p.1) = true →
        etv p.2 = some D →
        e.name ∈ (r.1 D).out_edges
  | [], _, _, _, _, p, hp, _, _ => absurd hp (List.not_mem_nil p)
  | q :: rest, store, e, r, h, p, hp, hdout, hD => by
    simp only [GraphPy.initEdges_ports] at h
    cases hstep : GraphPy.initEdges_port etv store e q with
    | error msg => rw [hstep] at h; exact absurd h (by simp)
    | ok r2 =>
      rw [hstep] at h
      rcases List.mem_cons.mp hp with rfl | hp2
      · have hins := initEdges_port_dout hdout hD hstep
        exact (initEdges_ports_mono rest r2.1 r2.2 r h D e.name).1 hins
      · have hname := initEdges_port_name hstep
        have hrec := initEdges_ports_dout D rest r2.1 r2.2 r h p hp2 hdout hD
        rwa [hname] at hrec

theorem initEdges_ports_din {etv : String → Option String} (S : String) :
    ∀ (ports : List (String × String)) (store : GraphPy.VStore) (e : GraphPy.EdgeR)
      (r : GraphPy.VStore × GraphPy.EdgeR),
      GraphPy.initEdges_ports etv ports store e = Except.ok r →
      ∀ p ∈ ports, (GraphPy.pyIn "_dout" p.2 && GraphPy.pyIn "_dout" p.1) = false →
        (GraphPy.pyIn "_din" p.2 && GraphPy.pyIn "_din" p.1) = true →
        etv p.2 = some S →
        e.name ∈ (r.1 S).in_edges
  | [], _, _, _, _, p, hp, _, _, _ => absurd hp (List.not_mem_nil p)
  | q :: rest, store, e, r, h, p, hp, hnd, hdin, hS => by
    simp only [GraphPy.initEdges_ports] at h
    cases hstep : GraphPy.initEdges_port etv store e q with
    | error msg => rw [hstep] at h; exact absurd h (by simp)
    | ok r2 =>
      rw [hstep] at h
      rcases List.mem_cons.mp hp with rfl | hp2
      · have hins := initEdges_port_din hnd hdin hS hstep
        exact (initEdges_ports_mono rest r2.1 r2.2 r h S e.name).2 hins
      · have hname := initEdges_port_name hstep
        have hrec := initEdges_ports_din S rest r2.1 r2.2 r h p hp2 hnd hdin hS
        rwa [hname] at hrec

/-- Claim C9: Vertex.add_in appends the edge to the vertex out_edges list
and leaves in_edges unchanged, Vertex.add_out appends to in_edges and
leaves out_edges unchanged; consequently, after Graph.initEdges processes a
FIFO instance whose dout port maps to vertex D and whose din port maps to
vertex S, the edge name is stored in the out_edges of D (the edge
destination) and in the in_edges of S (the edge source). -/
theorem claim_C9 :
    (∀ (v : GraphPy.Vertex) (e : String),
        (GraphPy.add_in v e).out_edges = v.out_edges ++ [e]
        ∧ (GraphPy.add_in v e).in_edges = v.in_edges)
    ∧ (∀ (v : GraphPy.Vertex) (e : String),
        (GraphPy.add_out v e).in_edges = v.in_edges ++ [e]
        ∧ (GraphPy.add_out v e).out_edges = v.out_edges)
    ∧ (∀ (etv : String → Option String) (node_name : String) (w d : Int)
         (ports : List (String × String)) (store : GraphPy.VStore)
         (r : GraphPy.VStore × GraphPy.EdgeR) (p q : String × String) (D S : String),
        GraphPy.initEdges etv node_name w d ports store = Except.ok r →
        p ∈ ports →
        (GraphPy.pyIn "_dout" p.2 && GraphPy.pyIn "_dout" p.1) = true →
        etv p.2 = some D →
        q ∈ ports →
        (GraphPy.pyIn "_dout" q.2 && GraphPy.pyIn "_dout" q.1) = false →
        (GraphPy.pyIn "_din" q.2 && GraphPy.pyIn "_din" q.1) = true →
        etv q.2 = some S →
        node_name ∈ (r.1 D).out_edges ∧ node_name ∈ (r.1 S).in_edges) := by
  refine ⟨fun v e => ⟨rfl, rfl⟩, fun v e => ⟨rfl, rfl⟩, ?_⟩
  intro etv node_name w d ports store r p q D S h hp hdout hD hq hnd hdin hS
  exact ⟨initEdges_ports_dout D ports store ⟨node_name, none, none, w, d⟩ r h p hp hdout hD,
         initEdges_ports_din S ports store ⟨node_name, none, none, w, d⟩ r h q hq hnd hdin hS⟩

end AutoBridge
